import Mathlib

/-!
Verification of the `mgr` metrics library (mgraphite).

The definitions below are a shallow embedding of `src/mgr.go`: the variable
registry (`Publish`/`Do`), the typed variables (`Int`, `Func`, `Map` with its
sorted key cache), the flattening of nested maps (`flattenMap`), and the
exporter's formatting and connection handling (`appendMetric`, `report`,
`Export`).  Locks are elided (they only guard the structural reads the
embedding makes explicit); the Go `map[string]Var` is modelled as an
association list with unique keys, and the random-order Go map iteration is
only ever used by the source to rebuild the sorted key cache, which the
embedding rebuilds from the same key multiset.

`timeFn`, `dialFn` and the connection writer are injection points in the
source (replaced by the tests); they appear here as explicit parameters.
-/

namespace Mgr

/-- KeyValue represents a single Graphite metric (struct `KeyValue` in
src/mgr.go). -/
structure KeyValue where
  Key : String
  Value : String
deriving DecidableEq

/-- The `Var` implementations relevant to the registry and the exporter:
`Int` (atomic integer cell, here its current value), `Func` (a computed
source, here the pairs it produces), and `Map` (entries of the Go
`map[string]Var` as an association list, plus the cached sorted key slice
`keys`).  `Float` is not modelled separately: for everything the exporter
does it behaves like `Func` with a single pre-rendered pair. -/
inductive Var where
  | int (key : String) (i : Int)
  | func (items : List KeyValue)
  | map (key : String) (entries : List (String × Var)) (keys : List String)

/-- `strconv.FormatInt(i, 10)`. -/
def formatInt (i : Int) : String := toString i

/-- The `default` branch of the type switch in `flattenMap`: `v.Items()` for a
non-`Map` variable.  (`Int.Items` yields one pair; `Func.Items` calls the
function.)  The `map` case is unreachable there because `flattenMap`
intercepts `*Map` values before reaching the default branch. -/
def leafItems : Var → List KeyValue
  | .int key i => [⟨key, formatInt i⟩]
  | .func items => items
  | .map _ _ _ => []

theorem sizeOf_lookup {k : String} {m : List (String × Var)} {v : Var}
    (h : List.lookup k m = some v) : sizeOf v < sizeOf m := by
  induction m with
  | nil => simp [List.lookup] at h
  | cons p rest ih =>
    rw [List.lookup] at h
    split at h
    · cases h
      cases p with
      | mk a b => simp; omega
    · have := ih h
      cases p with
      | mk a b => simp; omega

/-- `flattenMap(prefix, m, keys)` from src/mgr.go: iterate the cached key
slice; a nested `*Map` is flattened recursively under `prefix + "." + k`,
any other variable contributes one pair per item, keyed `prefix + "." + k`
(the item's own key is discarded, only `item.Value` is kept).  A key that is
absent from the map (impossible when `keys` is the map's own cache) yields
nothing here, where the Go code would fault. -/
def flattenMap (pre : String) (m : List (String × Var)) (keys : List String) :
    List KeyValue :=
  match keys with
  | [] => []
  | k :: rest =>
    (match h : List.lookup k m with
     | some (Var.map _ ents ks) => flattenMap (pre ++ "." ++ k) ents ks
     | some v => (leafItems v).map (fun item => ⟨pre ++ "." ++ k, item.Value⟩)
     | none => []) ++ flattenMap pre m rest
termination_by (sizeOf m, keys.length)
decreasing_by
  · apply Prod.Lex.left
    have h1 := sizeOf_lookup h
    simp at h1
    omega
  · apply Prod.Lex.right
    simp

/-- The body of `flattenMap`'s loop for one key `k`, as a function of the
lookup result `m[k]`: recurse into a nested `*Map`, emit the re-keyed items
of any other variable.  (`flattenMap` unfolds to this one key at a time; see
`flattenMap_cons`.) -/
def flattenOne (pre k : String) : Option Var → List KeyValue
  | some (Var.map _ ents ks) => flattenMap (pre ++ "." ++ k) ents ks
  | some v => (leafItems v).map (fun item => ⟨pre ++ "." ++ k, item.Value⟩)
  | none => []

/-- `Items()` of a variable: `Map.Items` locks and calls
`flattenMap(m.key, m.m, m.keys)`; the scalar variables return their single
pair; a `Func` calls the underlying function. -/
def Var.ItemsFn : Var → List KeyValue
  | .map key ents keys => flattenMap key ents keys
  | v => leafItems v

/-- `m.m[key] = val` on the association-list model of the Go map: replace the
binding in place if the key is present, append it otherwise. -/
def insertVar : List (String × Var) → String → Var → List (String × Var)
  | [], k, v => [(k, v)]
  | (k', v') :: rest, k, v =>
    if k' = k then (k, v) :: rest else (k', v') :: insertVar rest k v

/-- The key set of the Go map (the range of the `for k := range m.m` loop in
`Map.Set`). -/
def mapKeys (m : List (String × Var)) : List String := m.map Prod.fst

/-- Strict lexicographic order on strings, as comparison of their character
lists. -/
def strLt (a b : String) : Prop := a.data < b.data

/-- The comparison `sort.Strings` sorts by: ascending lexicographic order on
the character lists. -/
def strLe (a b : String) : Prop := a.data ≤ b.data

instance : DecidableRel strLt :=
  fun a b => inferInstanceAs (Decidable (a.data < b.data))

instance : DecidableRel strLe :=
  fun a b => inferInstanceAs (Decidable (a.data ≤ b.data))

/-- `sort.Strings` on the rebuilt key slice, modelled by insertion sort: the
slices `Map.Set` sorts are duplicate-free, and on duplicate-free input every
correct ascending sort produces the same list. -/
def sortStrings (l : List String) : List String := l.insertionSort strLe

/-- The mutable fields of a `Map`: the Go map `m.m` and the cached sorted key
slice `m.keys`.  (The map's own name `m.key` is passed separately where the
source reads it.) -/
structure MapState where
  entries : List (String × Var)
  keys : List String

/-- `Map.Init` (also what `NewMap` does): empty map, `keys` left nil. -/
def MapState.init : MapState := ⟨[], []⟩

/-- `Map.Set(key, val)`: insert or replace, then rebuild the whole sorted key
slice from the current map. -/
def MapState.set (s : MapState) (k : String) (v : Var) : MapState :=
  let m := insertVar s.entries k v
  ⟨m, sortStrings (mapKeys m)⟩

/-- The `Var` a map with name `key` and state `s` denotes. -/
def MapState.toVar (key : String) (s : MapState) : Var :=
  .map key s.entries s.keys

/-- `Map.Items()` = `flattenMap(m.key, m.m, m.keys)`. -/
def MapState.items (key : String) (s : MapState) : List KeyValue :=
  flattenMap key s.entries s.keys

/-- A `Map` built by folding `Map.Set` over a list of (name, variable)
operations, starting from `Map.Init`. -/
def buildOps (ops : List (String × Var)) : MapState :=
  ops.foldl (fun s kv => s.set kv.1 kv.2) MapState.init

/-- The invariant tying a map's cached key slice to its entries: the Go map
has unique keys, and the cache is an ascending duplicate-free enumeration of
exactly those keys. -/
def MapInv (s : MapState) : Prop :=
  (mapKeys s.entries).Nodup ∧ s.keys.Pairwise strLe ∧ s.keys.Perm (mapKeys s.entries)

/-- Whether the type switch in `flattenMap` takes the `*Map` case. -/
def isMapVar : Var → Bool
  | .map _ _ _ => true
  | _ => false

/-- A map member that the `default` branch of `flattenMap` serializes to
exactly one line: a non-`Map` variable with a single item. -/
def isLeafSingle : Var → Bool
  | .map _ _ _ => false
  | .int _ _ => true
  | .func items => items.length == 1

/-- `Publish(v)`: append `v` to the global `vars.l` under lock. -/
def Publish (r : List Var) (v : Var) : List Var := r ++ [v]

/-- `Do(fn)`: iterate `vars.l` in order under lock, invoking the visitor on
each entry.  The visitor's effect is modelled by an explicit accumulator. -/
def Do {β : Type} (r : List Var) (f : β → Var → β) (init : β) : β :=
  r.foldl f init

/-- The visitation sequence of `Do`: the list of variables the visitor is
invoked on, in invocation order. -/
def doTrace (r : List Var) : List Var := Do r (fun acc v => acc ++ [v]) []

/-- `Config` (src/mgr.go).  `Interval` is a `time.Duration` in nanoseconds.
The `Logger` field is omitted: it is a side-effect-only callback that the
control flow never branches on. -/
structure Config where
  Interval : Int
  Addr : String
  Prefix : String
deriving DecidableEq

/-- The `prefix` local computed at the top of `appendMetric`: empty unless the
config is non-nil and has a non-empty `Prefix`, in which case
`config.Prefix + "."`. -/
def metricPrefix : Option Config → String
  | some c => if c.Prefix ≠ "" then c.Prefix ++ "." else ""
  | none => ""

/-- One wire-format line as written by the body of `appendMetric`'s loop:
`prefix + kv.Key + " " + kv.Value + " "`, then `FormatInt(timeFn(), 10)`,
then `'\n'`. -/
def metricLine (pre : String) (kv : KeyValue) (ts : Int) : String :=
  pre ++ kv.Key ++ " " ++ kv.Value ++ " " ++ toString ts ++ "\n"

/-- The loop body of `appendMetric`: one line per item, each line calling
`timeFn()` once.  `timeFn`'s calls within one flush are numbered
consecutively by `n`; each produced element records the line written together
with the `timeFn` value consumed for it. -/
def linesFor (pre : String) (tf : Nat → Int) (n : Nat) :
    List KeyValue → List (String × Int)
  | [] => []
  | kv :: rest => (metricLine pre kv (tf n), tf n) :: linesFor pre tf (n + 1) rest

/-- `appendMetric(config, buf, v)`: append one line per item of `v.Items()` to
the buffer; a buffer holding `n` lines so far consumes `tf n, tf (n+1), ...`. -/
def appendMetric (cfg : Option Config) (tf : Nat → Int)
    (acc : List (String × Int)) (v : Var) : List (String × Int) :=
  acc ++ linesFor (metricPrefix cfg) tf acc.length v.ItemsFn

/-- All items one flush serializes: the concatenation of `v.Items()` over the
registry in publish order. -/
def allItems (vars : List Var) : List KeyValue :=
  (vars.map Var.ItemsFn).flatten

/-- The buffer `report` builds: `Do(func(v Var) { appendMetric(config, buf, v) })`. -/
def renderAll (cfg : Option Config) (tf : Nat → Int) (vars : List Var) :
    List (String × Int) :=
  Do vars (appendMetric cfg tf) []

/-- The bytes `report` hands to `io.Copy`: the concatenated lines. -/
def payload (cfg : Option Config) (tf : Nat → Int) (vars : List Var) : String :=
  String.join ((renderAll cfg tf vars).map Prod.fst)

/-- The outcome of the single `Write` call that `bytes.Buffer.WriteTo` makes
for a non-empty buffer: either the whole content is accepted, or the
connection accepts `accepted` bytes and the copy fails with an error (the
`io.ErrShortWrite` that `WriteTo` fabricates for a silent short write folds
into the failure case). -/
inductive WriteResult where
  | ok
  | fail (accepted : Nat) (e : String)

/-- The state `report` reads and writes: the connection holder `conn`, the
registry `vars.l`, the content of the pooled buffer, and the log of byte
chunks successfully delivered to a connection.  `bufPool` holds the buffer
the single exporter task cycles through `Get`/`Put`; `report` `Put`s it back
WITHOUT a `Reset`, so content that a failed write left behind is handed out
again by the next `Get`.  (`sync.Pool` may also hand out a fresh empty
buffer, e.g. after a GC; `pool := ""` covers that case.)  Byte offsets into
the buffer are modelled as character offsets, which agree on this ASCII wire
format. -/
structure ReportState where
  conn : Option Unit
  vars : List Var
  pool : String
  written : List String

/-- The tail of `report` once a connection is at hand: `bufPool.Get()` hands
back the pooled buffer with whatever it still holds, the `Do` loop appends
this tick's lines after that leftover, and `io.Copy` dispatches to
`bytes.Buffer.WriteTo`: an empty buffer writes nothing and cannot fail; a
non-empty buffer is offered to the connection in one `Write` — on success
the buffer is `Reset` and pooled empty, on failure the accepted prefix is
consumed (`b.off += m`), the unsent remainder stays in the pooled buffer,
the connection holder is set to nil and the error is returned. -/
def reportConnected (cfg : Option Config) (tf : Nat → Int)
    (write : String → WriteResult) (s : ReportState) :
    ReportState × Except String Unit :=
  let buf := s.pool ++ payload cfg tf s.vars
  if buf = "" then
    ({ s with pool := "" }, .ok ())
  else
    match write buf with
    | .ok => ({ s with pool := "", written := s.written ++ [buf] }, .ok ())
    | .fail m e =>
      ({ s with
          conn := none
          pool := buf.drop m
          written := if m = 0 then s.written else s.written ++ [buf.take m] },
        .error e)

/-- `report(config)`: dial if `conn == nil` (returning the dial error without
touching the pooled buffer), then flush through the connection. -/
def report (cfg : Option Config) (tf : Nat → Int)
    (dial : Except String Unit) (write : String → WriteResult)
    (s : ReportState) : ReportState × Except String Unit :=
  match s.conn with
  | none =>
    match dial with
    | .error e => (s, .error e)
    | .ok c => reportConnected cfg tf write { s with conn := some c }
  | some _ => reportConnected cfg tf write s

/-- What `Export` does synchronously, before any tick: either reject the
configuration or enter the ticker loop with the defaulted configuration. -/
inductive ExportOutcome where
  | invalidConfig
  | entersLoop (effective : Config)
deriving DecidableEq

/-- `1 * time.Minute` in nanoseconds. -/
def minuteNs : Int := 60000000000

/-- The synchronous part of `Export(config)` (src/mgr.go): a nil config is
rejected with `ErrInvalidConfig`; any non-nil config — its `Addr` is never
examined — has a zero `Interval` defaulted to one minute and then the ticker
loop is entered.  (The `Logger` defaulting is omitted with the field.) -/
def Export (config : Option Config) : ExportOutcome :=
  match config with
  | none => .invalidConfig
  | some c =>
    .entersLoop { c with Interval := if c.Interval = 0 then minuteNs else c.Interval }

/-- Modelled from the spec: the Histogram implementation (`NewHistogram`,
`Record`, `takeSnapshot`, `percentile`) is not under src/ — only
`histogram_test.go` is.  Per spec §4.4: a fixed-capacity sample buffer used
as a ring buffer indexed by a monotonically increasing write counter modulo
capacity, plus a same-size snapshot buffer; unwritten slots hold zero. -/
structure Histogram where
  key : String
  capacity : Nat
  buffer : List Int
  counter : Nat
  snapshot : List Int

/-- Modelled from the spec: `NewHistogram(name, capacity)` — fresh zeroed
buffers of the chosen capacity, write counter at zero. -/
def NewHistogram (key : String) (capacity : Nat) : Histogram :=
  ⟨key, capacity, List.replicate capacity 0, 0, List.replicate capacity 0⟩

/-- Modelled from the spec: `Record(value)` writes into slot
`(writeCounter mod capacity)`, then increments `writeCounter`. -/
def Histogram.Record (h : Histogram) (v : Int) : Histogram :=
  { h with buffer := h.buffer.set (h.counter % h.capacity) v,
           counter := h.counter + 1 }

/-- Modelled from the spec: `takeSnapshot` copies the full sample buffer into
the snapshot buffer. -/
def Histogram.takeSnapshot (h : Histogram) : Histogram :=
  { h with snapshot := h.buffer }

/-- Ascending comparison for sorting the snapshot. -/
def intLe (a b : Int) : Prop := a ≤ b

instance : DecidableRel intLe := fun a b => inferInstanceAs (Decidable (a ≤ b))

/-- Modelled from the spec: nearest-rank percentile — sort the snapshot
ascending; for requested percentile `p` in [0,100] compute
`index = ceil(p / 100 * (size - 1))` and return the value at that sorted
index. -/
def Histogram.percentile (h : Histogram) (p : ℚ) : Int :=
  let sorted := h.snapshot.insertionSort intLe
  let size := sorted.length
  let idx := (⌈p / 100 * ((size : ℚ) - 1)⌉).toNat
  sorted.getD idx 0

/-- The recording sequence of `TestHistogramPercentile`
(src/histogram_test.go): 300×100, 300×500, 300×800, 100×3000 into a
capacity-1000 histogram. -/
def histRecordsC9 : List Int :=
  List.replicate 300 100 ++ List.replicate 300 500 ++
    List.replicate 300 800 ++ List.replicate 100 3000

/-- The histogram of `TestHistogramPercentile` after recording and taking the
snapshot. -/
def histAfterC9 : Histogram :=
  (histRecordsC9.foldl Histogram.Record (NewHistogram "foobar" 1000)).takeSnapshot

/-! ## Proof development -/

/-- Folding `Publish` over a list of variables appends it to the registry. -/
theorem publishAll_eq (vs acc : List Var) : vs.foldl Publish acc = acc ++ vs := by
  induction vs generalizing acc with
  | nil => simp
  | cons v rest ih => simp [List.foldl_cons, Publish, ih]

/-- `Do` visits exactly the registry, in order. -/
theorem doTrace_eq (r : List Var) : doTrace r = r := by
  have h := publishAll_eq r []
  simpa [doTrace, Do, Publish] using h

/-- C3: nil configuration is rejected synchronously with `ErrInvalidConfig`;
but a configuration with an empty remote address is not: `Export` never
returns the invalid-configuration error for any non-nil config, including
`Addr = ""`, and instead enters the ticker loop (the empty address then
surfaces as a dial failure on each tick).  The claim's empty-address half
contradicts the code (and the code contradicts `ErrInvalidConfig`'s own doc
comment, which names a missing Graphite address as the invalid case). -/
theorem export_config_validation :
    Export none = ExportOutcome.invalidConfig ∧
    Export (some ⟨0, "", ""⟩) = ExportOutcome.entersLoop ⟨minuteNs, "", ""⟩ ∧
    ∀ c : Config, Export (some c) ≠ ExportOutcome.invalidConfig := by
  refine ⟨rfl, rfl, fun c => ?_⟩
  simp [Export]

/-- C6: the registry traversal visits every published variable exactly once,
in publish order (oldest first), and publishing the same variable twice
yields two entries that are both visited. -/
theorem registry_visits_publish_order :
    (∀ vs : List Var, doTrace (vs.foldl Publish []) = vs) ∧
    (∀ (r : List Var) (v : Var),
      doTrace (Publish (Publish r v) v) = doTrace r ++ [v, v]) := by
  constructor
  · intro vs
    rw [doTrace_eq]
    simpa using publishAll_eq vs []
  · intro r v
    rw [doTrace_eq, doTrace_eq]
    simp [Publish]

/-- C7: a registry holding exactly one `Int` named `foobar` with value 50,
flushed with the time function pinned at 100 over a fresh successful
connection, writes exactly the bytes `"foobar 50 100\n"` — and nothing
else — to the connection. -/
theorem report_single_int_wire_format :
    report none (fun _ => 100) (.ok ()) (fun _ => .ok)
      ⟨none, [.int "foobar" 50], "", []⟩ =
    (⟨some (), [.int "foobar" 50], "", ["foobar 50 100\n"]⟩, .ok ()) := rfl

/-- C1 as stated is false: `appendMetric` calls `timeFn()` inside its per-item
loop, once per line, so two counters flushed in one `report` with a time
function that advances between calls carry different timestamps (here 100
and 101). -/
theorem flush_shared_timestamp_counterexample :
    ¬ (∀ t₁ ∈ (renderAll none (fun n => 100 + n)
          [.int "a" 1, .int "b" 2]).map Prod.snd,
       ∀ t₂ ∈ (renderAll none (fun n => 100 + n)
          [.int "a" 1, .int "b" 2]).map Prod.snd, t₁ = t₂) := by
  decide

/-- Every timestamp consumed while rendering one variable's lines is the
pinned value when the time function is constant. -/
theorem mem_linesFor_snd {tf : Nat → Int} {t : Int} (h : ∀ n, tf n = t)
    (pre : String) :
    ∀ (items : List KeyValue) (n : Nat) (q : String × Int),
      q ∈ linesFor pre tf n items → q.2 = t := by
  intro items
  induction items with
  | nil => intro n q hq; simp [linesFor] at hq
  | cons kv rest ih =>
    intro n q hq
    rw [linesFor] at hq
    rcases List.mem_cons.mp hq with rfl | hq
    · exact h n
    · exact ih _ _ hq

theorem renderAll_const_time_aux (cfg : Option Config) (tf : Nat → Int)
    (t : Int) (h : ∀ n, tf n = t) :
    ∀ (vars : List Var) (acc : List (String × Int)),
      (∀ q ∈ acc, q.2 = t) →
      ∀ q ∈ vars.foldl (appendMetric cfg tf) acc, q.2 = t := by
  intro vars
  induction vars with
  | nil => intro acc hacc q hq; exact hacc q hq
  | cons v rest ih =>
    intro acc hacc q hq
    refine ih _ ?_ q hq
    intro q' hq'
    rcases List.mem_append.mp hq' with hmem | hmem
    · exact hacc q' hmem
    · exact mem_linesFor_snd h _ _ _ q' hmem

/-- C1 (amended): the timestamp is captured once per line, not once per
flush — `timeFn()` is invoked for every line `appendMetric` writes; all
lines of one flush share a single timestamp exactly when the time function
returns the same value for every call made during that flush (e.g. a clock
at whole-second granularity that does not tick over), in which case every
line carries that value. -/
theorem flush_timestamp_once_per_line (cfg : Option Config) (vars : List Var)
    (t : Int) (tf : Nat → Int) (h : ∀ n, tf n = t) :
    ∀ q ∈ renderAll cfg tf vars, q.2 = t := by
  have := renderAll_const_time_aux cfg tf t h vars [] (by simp)
  simpa [renderAll, Do] using this

theorem flush_timestamp_once_per_line_witness :
    (("a 1 100\n", (100 : Int)) : String × Int).2 = 100 :=
  flush_timestamp_once_per_line none [.int "a" 1] 100
    (fun _ => 100) (fun _ => rfl) ("a 1 100\n", 100) (by decide)

theorem length_linesFor (pre : String) (tf : Nat → Int) :
    ∀ (items : List KeyValue) (n : Nat),
      (linesFor pre tf n items).length = items.length := by
  intro items
  induction items with
  | nil => intro n; rfl
  | cons kv rest ih => intro n; simp [linesFor, ih]

theorem linesFor_append (pre : String) (tf : Nat → Int) :
    ∀ (l₁ l₂ : List KeyValue) (n : Nat),
      linesFor pre tf n (l₁ ++ l₂)
        = linesFor pre tf n l₁ ++ linesFor pre tf (n + l₁.length) l₂ := by
  intro l₁
  induction l₁ with
  | nil => intro l₂ n; simp [linesFor]
  | cons kv rest ih =>
    intro l₂ n
    have harith : n + 1 + rest.length = n + (rest.length + 1) := by omega
    simp only [List.cons_append, linesFor, List.append_eq, ih,
      List.length_cons, harith]

/-- The buffer a flush builds is the per-line rendering of the concatenated
items of the registry, in order. -/
theorem renderAll_eq_linesFor (cfg : Option Config) (tf : Nat → Int) :
    ∀ (vars : List Var) (acc : List (String × Int)),
      vars.foldl (appendMetric cfg tf) acc
        = acc ++ linesFor (metricPrefix cfg) tf acc.length (allItems vars) := by
  intro vars
  induction vars with
  | nil => intro acc; simp [allItems, linesFor]
  | cons v rest ih =>
    intro acc
    rw [List.foldl_cons]
    rw [ih (appendMetric cfg tf acc v)]
    simp only [appendMetric, allItems, List.map_cons, List.flatten_cons]
    rw [linesFor_append, List.append_assoc, List.length_append,
      length_linesFor]

theorem mem_linesFor_structure (pre : String) (tf : Nat → Int) :
    ∀ (items : List KeyValue) (n : Nat) (q : String × Int),
      q ∈ linesFor pre tf n items →
      ∃ kv ∈ items, q.1 = pre ++ kv.Key ++ " " ++ kv.Value ++ " "
        ++ toString q.2 ++ "\n" := by
  intro items
  induction items with
  | nil => intro n q hq; simp [linesFor] at hq
  | cons kv rest ih =>
    intro n q hq
    rw [linesFor] at hq
    rcases List.mem_cons.mp hq with rfl | hq
    · exact ⟨kv, List.mem_cons_self .., by simp [metricLine]⟩
    · obtain ⟨kv', hkv', heq⟩ := ih _ _ hq
      exact ⟨kv', List.mem_cons_of_mem _ hkv', heq⟩

/-- C10: `appendMetric` (inside `report`) tolerates a nil configuration, and
the key of every emitted line is exactly the item's own key — with no prefix
and no leading dot — when the config is nil or has an empty `Prefix`, and is
`Prefix + "." + key` when the `Prefix` is non-empty. -/
theorem report_prefix_handling (tf : Nat → Int) (vars : List Var) :
    (∀ (cfg : Option Config) (q : String × Int), q ∈ renderAll cfg tf vars →
      ∃ kv ∈ allItems vars, q.1 = metricPrefix cfg ++ kv.Key ++ " "
        ++ kv.Value ++ " " ++ toString q.2 ++ "\n") ∧
    metricPrefix none = "" ∧
    (∀ c : Config, c.Prefix = "" → metricPrefix (some c) = "") ∧
    (∀ c : Config, c.Prefix ≠ "" → metricPrefix (some c) = c.Prefix ++ ".") := by
  refine ⟨?_, rfl, ?_, ?_⟩
  · intro cfg q hq
    rw [renderAll, Do, renderAll_eq_linesFor] at hq
    simp only [List.nil_append, List.length_nil] at hq
    exact mem_linesFor_structure _ _ _ _ _ hq
  · intro c hc
    simp [metricPrefix, hc]
  · intro c hc
    simp [metricPrefix, hc]

theorem report_prefix_handling_witness :
    ∃ kv ∈ allItems [Var.int "k" 7],
      ("k 7 5\n", (5 : Int)).1 = metricPrefix none ++ kv.Key ++ " "
        ++ kv.Value ++ " " ++ toString ("k 7 5\n", (5 : Int)).2 ++ "\n" :=
  (report_prefix_handling (fun _ => 5) [Var.int "k" 7]).1 none
    ("k 7 5\n", 5) (by decide)

/-- C8 as stated is false on its "current, not stale" half: `report` pools
its flush buffer without a reset, so after a write that fails before the
connection accepts anything, the unsent payload (`x 1 7\n`, value 1) stays
in the pooled buffer; the next successful tick — after the variable was set
to 2 — delivers `x 1 7\nx 2 7\n`: the stale line first, not only the
then-current values. -/
theorem report_stale_replay_counterexample :
    report none (fun _ => 7) (.ok ()) (fun _ => WriteResult.fail 0 "boom")
        ⟨some (), [.int "x" 1], "", []⟩
      = (⟨none, [.int "x" 1], "x 1 7\n", []⟩, .error "boom") ∧
    report none (fun _ => 7) (.ok ()) (fun _ => WriteResult.ok)
        ⟨none, [.int "x" 2], "x 1 7\n", []⟩
      = (⟨some (), [.int "x" 2], "", ["x 1 7\nx 2 7\n"]⟩, .ok ()) ∧
    "x 1 7\nx 2 7\n" ≠ payload none (fun _ => 7) [.int "x" 2] := by
  refine ⟨rfl, rfl, by decide⟩

/-- C8 (amended): a write failure during a flush discards the connection (the
holder is set to nil, so the next tick redials), returns the error, and
leaves the registry — hence every published variable's value — untouched;
but the unsent bytes stay in the pooled buffer, so the next successful tick
delivers that stale leftover followed by the freshly rendered then-current
values in one chunk; it delivers exactly the current values alone only when
the flush starts from an empty pooled buffer. -/
theorem report_write_failure (cfg : Option Config) (tf : Nat → Int)
    (dial : Except String Unit) (write : String → WriteResult)
    (s : ReportState) (u : Unit) (hconn : s.conn = some u)
    (m : Nat) (e : String)
    (hw : write (s.pool ++ payload cfg tf s.vars) = .fail m e)
    (hne : s.pool ++ payload cfg tf s.vars ≠ "") :
    report cfg tf dial write s
      = ({ s with
            conn := none
            pool := (s.pool ++ payload cfg tf s.vars).drop m
            written := if m = 0 then s.written
              else s.written ++ [(s.pool ++ payload cfg tf s.vars).take m] },
          .error e) ∧
    (∀ (vars' : List Var) (leftover : String) (wr : String → WriteResult)
        (written₀ : List String),
      wr (leftover ++ payload cfg tf vars') = .ok →
      leftover ++ payload cfg tf vars' ≠ "" →
      report cfg tf (.ok ()) wr ⟨none, vars', leftover, written₀⟩
        = (⟨some (), vars', "",
            written₀ ++ [leftover ++ payload cfg tf vars']⟩, .ok ())) := by
  constructor
  · simp only [report.eq_def, hconn, reportConnected]
    rw [if_neg hne]
    simp only [hw]
  · intro vars' leftover wr written₀ hwr hne'
    simp only [report.eq_def, reportConnected]
    rw [if_neg hne']
    simp only [hwr]

theorem report_write_failure_witness :
    report none (fun _ => 7) (.ok ()) (fun _ => WriteResult.fail 0 "boom")
        ⟨some (), [.int "y" 5], "", []⟩
      = (⟨none, [.int "y" 5], "y 5 7\n", []⟩, .error "boom") ∧
    report none (fun _ => 7) (.ok ()) (fun _ => WriteResult.ok)
        ⟨none, [.int "y" 6], "y 5 7\n", []⟩
      = (⟨some (), [.int "y" 6], "", ["y 5 7\ny 6 7\n"]⟩, .ok ()) :=
  ⟨(report_write_failure none (fun _ => 7) (.ok ())
      (fun _ => WriteResult.fail 0 "boom") ⟨some (), [.int "y" 5], "", []⟩ ()
      rfl 0 "boom" rfl (by decide)).1,
   (report_write_failure none (fun _ => 7) (.ok ())
      (fun _ => WriteResult.fail 0 "boom") ⟨some (), [.int "y" 5], "", []⟩ ()
      rfl 0 "boom" rfl (by decide)).2
      [.int "y" 6] "y 5 7\n" (fun _ => WriteResult.ok) [] rfl (by decide)⟩

/-- `flattenMap` processes its key slice segment by segment. -/
theorem flattenMap_append (pre : String) (m : List (String × Var)) :
    ∀ (l₁ l₂ : List String),
      flattenMap pre m (l₁ ++ l₂)
        = flattenMap pre m l₁ ++ flattenMap pre m l₂ := by
  intro l₁
  induction l₁ with
  | nil => intro l₂; simp [flattenMap]
  | cons k rest ih =>
    intro l₂
    rw [List.cons_append]
    rw [flattenMap]
    rw [flattenMap]
    rw [ih, List.append_assoc]

/-- C2 (amended): when a Map flattens, a contained non-Map member contributes
one pair per item of its own `Items`, but every such pair is keyed by the
group name and member name joined with `.` alone: the trailing key segment
the member itself produced is discarded (only the item's value is kept), so
multiple pairs from one member share one identical flattened key instead of
yielding distinct keys. -/
theorem flatten_nonmap_member_keys (pre : String) (m : List (String × Var))
    (ks₁ ks₂ : List String) (k : String) (v : Var)
    (hlook : List.lookup k m = some v) (hnm : isMapVar v = false) :
    flattenMap pre m (ks₁ ++ k :: ks₂)
      = flattenMap pre m ks₁
        ++ (leafItems v).map (fun item => ⟨pre ++ "." ++ k, item.Value⟩)
        ++ flattenMap pre m ks₂ := by
  rw [flattenMap_append]
  rw [flattenMap]
  rw [List.append_assoc]
  congr 1
  congr 1
  split
  · rename_i key' ents' ks' heq
    rw [hlook] at heq
    cases heq
    simp [isMapVar] at hnm
  · rename_i v' heq
    rw [hlook] at heq
    cases heq
    rfl
  · rename_i heq
    rw [hlook] at heq
    cases heq

theorem flatten_nonmap_member_keys_witness :
    flattenMap "g" [("c", Var.int "z" 3)] ([] ++ "c" :: [])
      = flattenMap "g" [("c", Var.int "z" 3)] []
        ++ (leafItems (Var.int "z" 3)).map
            (fun item => ⟨"g" ++ "." ++ "c", item.Value⟩)
        ++ flattenMap "g" [("c", Var.int "z" 3)] [] :=
  flatten_nonmap_member_keys "g" [("c", Var.int "z" 3)] [] [] "c"
    (Var.int "z" 3) rfl rfl

/-- C2 as stated is false: a member whose own `Items` yields two pairs with
distinct trailing keys (`mean`, `max`) flattens to two pairs carrying one
identical key `g2.hist`; the member's key segments are not preserved and the
two flattened keys are not distinct. -/
theorem flatten_preserves_segments_counterexample :
    (buildOps [("hist", Var.func [⟨"mean", "1"⟩, ⟨"max", "2"⟩])]).items "g2"
      = [⟨"g2.hist", "1"⟩, ⟨"g2.hist", "2"⟩] ∧
    ¬ (((buildOps [("hist", Var.func [⟨"mean", "1"⟩, ⟨"max", "2"⟩])]).items
        "g2").map KeyValue.Key).Nodup := by
  have h : (buildOps [("hist", Var.func [⟨"mean", "1"⟩, ⟨"max", "2"⟩])]).items
      "g2" = [⟨"g2.hist", "1"⟩, ⟨"g2.hist", "2"⟩] := by
    show flattenMap "g2" [("hist", Var.func [⟨"mean", "1"⟩, ⟨"max", "2"⟩])]
      ["hist"] = _
    simp [flattenMap, List.lookup, leafItems]
  exact ⟨h, by rw [h]; decide⟩

/-- Assigning into the Go map changes exactly the binding of the assigned
key. -/
theorem lookup_insertVar (k : String) (v : Var) (k' : String) :
    ∀ m, List.lookup k' (insertVar m k v)
      = if k' = k then some v else List.lookup k' m := by
  intro m
  induction m with
  | nil =>
    by_cases h : k' = k
    · have hb : (k' == k) = true := beq_iff_eq.mpr h
      simp [insertVar, List.lookup_cons, hb, h]
    · have hb : (k' == k) = false := beq_eq_false_iff_ne.mpr h
      simp [insertVar, List.lookup_cons, hb, h]
  | cons p rest ih =>
    obtain ⟨a, b⟩ := p
    rw [insertVar]
    by_cases hak : a = k
    · rw [if_pos hak]
      subst hak
      by_cases h : k' = a
      · have hb : (k' == a) = true := beq_iff_eq.mpr h
        simp [List.lookup_cons, hb, h]
      · have hb : (k' == a) = false := beq_eq_false_iff_ne.mpr h
        simp [List.lookup_cons, hb, h]
    · rw [if_neg hak]
      by_cases h1 : k' = a
      · have hb : (k' == a) = true := beq_iff_eq.mpr h1
        have h2 : ¬ k' = k := by rw [h1]; exact hak
        simp [List.lookup_cons, hb, h2]
      · have hb : (k' == a) = false := beq_eq_false_iff_ne.mpr h1
        simp [List.lookup_cons, hb, ih]

theorem mapKeys_cons (a : String) (b : Var) (l : List (String × Var)) :
    mapKeys ((a, b) :: l) = a :: mapKeys l := rfl

/-- Assigning into the Go map leaves the key set unchanged when the key is
present and appends the key otherwise. -/
theorem mapKeys_insertVar (k : String) (v : Var) :
    ∀ m, mapKeys (insertVar m k v)
      = if k ∈ mapKeys m then mapKeys m else mapKeys m ++ [k] := by
  intro m
  induction m with
  | nil => simp [insertVar, mapKeys]
  | cons p rest ih =>
    obtain ⟨a, b⟩ := p
    by_cases hak : a = k
    · subst hak
      rw [insertVar, if_pos rfl, mapKeys_cons, mapKeys_cons]
      simp
    · rw [insertVar, if_neg hak, mapKeys_cons, mapKeys_cons]
      have hka : ¬ k = a := fun hh => hak hh.symm
      by_cases hmem : k ∈ mapKeys rest
      · simp [mapKeys_cons, ih, hmem, hka]
      · simp [mapKeys_cons, ih, hmem, hka]

theorem nodup_mapKeys_insertVar (k : String) (v : Var)
    (m : List (String × Var)) (h : (mapKeys m).Nodup) :
    (mapKeys (insertVar m k v)).Nodup := by
  rw [mapKeys_insertVar]
  split
  · exact h
  · rename_i hnot
    simp [List.nodup_append, h, hnot]

instance : IsTrans String strLe := ⟨fun _ _ _ h₁ h₂ => le_trans h₁ h₂⟩

instance : IsTotal String strLe := ⟨fun a b => le_total a.data b.data⟩

instance : IsAntisymm String strLe :=
  ⟨fun a b h₁ h₂ => by
    cases a with
    | mk da =>
      cases b with
      | mk db => exact congrArg String.mk (le_antisymm h₁ h₂)⟩

theorem sortStrings_sorted (l : List String) : (sortStrings l).Pairwise strLe :=
  List.sorted_insertionSort strLe l

theorem sortStrings_perm (l : List String) : (sortStrings l).Perm l :=
  List.perm_insertionSort strLe l

/-- `Map.Set` establishes the key-cache invariant whenever the Go map's keys
are duplicate-free. -/
theorem set_inv (s : MapState) (k : String) (v : Var)
    (h : (mapKeys s.entries).Nodup) : MapInv (s.set k v) :=
  ⟨nodup_mapKeys_insertVar k v s.entries h, sortStrings_sorted _,
    sortStrings_perm _⟩

theorem buildOps_inv_aux : ∀ (ops : List (String × Var)) (s : MapState),
    MapInv s → MapInv (ops.foldl (fun s kv => s.set kv.1 kv.2) s) := by
  intro ops
  induction ops with
  | nil => intro s h; exact h
  | cons op rest ih =>
    intro s h
    exact ih _ (set_inv s op.1 op.2 h.1)

/-- Every map reachable from `Init` by `Set` calls satisfies the key-cache
invariant. -/
theorem buildOps_inv (ops : List (String × Var)) : MapInv (buildOps ops) :=
  buildOps_inv_aux ops MapState.init
    ⟨List.nodup_nil, List.Pairwise.nil, List.Perm.nil⟩

theorem lookup_isSome_iff_mem_mapKeys (m : List (String × Var)) (k : String) :
    (List.lookup k m).isSome ↔ k ∈ mapKeys m := by
  rw [List.lookup_isSome_iff]
  simp only [mapKeys, List.mem_map, beq_iff_eq]
  constructor
  · rintro ⟨p, hp, rfl⟩
    exact ⟨p, hp, rfl⟩
  · rintro ⟨p, hp, rfl⟩
    exact ⟨p, hp, rfl⟩

/-- C5: once a `Set` call returns — after any sequence of `Set` calls from an
initialized map — the cached key slice is sorted ascending, duplicate-free,
and holds exactly the keys of the current name-to-variable mapping. -/
theorem set_rebuilds_exact_key_cache (ops : List (String × Var))
    (k : String) (v : Var) :
    ((buildOps ops).set k v).keys.Pairwise strLe ∧
    ((buildOps ops).set k v).keys.Nodup ∧
    (∀ k', k' ∈ ((buildOps ops).set k v).keys ↔
      (List.lookup k' ((buildOps ops).set k v).entries).isSome) := by
  obtain ⟨hnd, hsort, hperm⟩ := set_inv (buildOps ops) k v (buildOps_inv ops).1
  refine ⟨hsort, hperm.symm.nodup hnd, fun k' => ?_⟩
  rw [hperm.mem_iff, lookup_isSome_iff_mem_mapKeys]

/-- One step of `flattenMap`: the head key contributes `flattenOne` of its
lookup. -/
theorem flattenMap_cons (pre k : String) (rest : List String)
    (m : List (String × Var)) :
    flattenMap pre m (k :: rest)
      = flattenOne pre k (List.lookup k m) ++ flattenMap pre m rest := by
  rw [flattenMap]
  congr 1
  split
  · rename_i key' ents' ks' heq
    rw [heq, flattenOne]
  · rename_i v' hnotmap heq
    rw [heq]
    cases v' with
    | map key' ents' ks' => exact absurd rfl (hnotmap key' ents' ks')
    | int key' i =>
      rw [flattenOne]
      exact hnotmap
    | func items =>
      rw [flattenOne]
      exact hnotmap
  · rename_i heq
    rw [heq, flattenOne]

/-- `flattenMap` reads the Go map only through lookups: two maps that answer
every lookup identically flatten identically under any key slice. -/
theorem flattenMap_congr {m₁ m₂ : List (String × Var)}
    (h : ∀ k, List.lookup k m₁ = List.lookup k m₂) :
    ∀ (keys : List String) (pre : String),
      flattenMap pre m₁ keys = flattenMap pre m₂ keys := by
  intro keys
  induction keys with
  | nil => intro pre; simp [flattenMap]
  | cons k rest ih =>
    intro pre
    rw [flattenMap_cons, flattenMap_cons, h k, ih]

theorem string_data_inj {a b : String} (h : a.data = b.data) : a = b := by
  cases a with
  | mk da =>
    cases b with
    | mk db => exact congrArg String.mk h

theorem pairwise_strLt_of_le_nodup {l : List String}
    (hle : l.Pairwise strLe) (hnd : l.Nodup) : l.Pairwise strLt := by
  refine (hle.and hnd).imp ?_
  rintro a b ⟨h1, h2⟩
  exact lt_of_le_of_ne h1 (fun hd => h2 (string_data_inj hd))

theorem strLt_append_left (p a b : String) (h : strLt a b) :
    strLt (p ++ a) (p ++ b) := by
  show (p ++ a).data < (p ++ b).data
  rw [String.data_append, String.data_append]
  exact List.Lex.append_left _ h _

theorem lookup_mem {k : String} {v : Var} :
    ∀ {m : List (String × Var)}, List.lookup k m = some v → (k, v) ∈ m := by
  intro m
  induction m with
  | nil => intro h; simp at h
  | cons p rest ih =>
    obtain ⟨a, b⟩ := p
    intro h
    rw [List.lookup_cons] at h
    cases hb : k == a with
    | true =>
      rw [hb] at h
      cases h
      have : k = a := beq_iff_eq.mp hb
      subst this
      exact List.mem_cons_self ..
    | false =>
      rw [hb] at h
      exact List.mem_cons_of_mem _ (ih h)

/-- Over duplicate-free keys, association-list lookup is insensitive to the
order of the bindings. -/
theorem lookup_perm_of_nodup :
    ∀ {l₁ l₂ : List (String × Var)}, l₁.Perm l₂ →
      (l₁.map Prod.fst).Nodup → ∀ k, List.lookup k l₁ = List.lookup k l₂ := by
  intro l₁ l₂ hperm
  induction hperm with
  | nil => intro _ k; rfl
  | cons x h ih =>
    intro hnd k
    obtain ⟨a, b⟩ := x
    rw [List.lookup_cons, List.lookup_cons]
    cases hb : k == a
    · exact ih (List.nodup_cons.mp hnd).2 k
    · rfl
  | swap x y l =>
    intro hnd k
    obtain ⟨a, b⟩ := x
    obtain ⟨c, d⟩ := y
    have hca : ¬ c = a := by
      rcases List.nodup_cons.mp hnd with ⟨hc, _⟩
      intro hh
      exact hc (hh ▸ List.mem_cons_self ..)
    rw [List.lookup_cons, List.lookup_cons]
    cases hbc : k == c <;> cases hba : k == a
    · simp [List.lookup_cons, hbc, hba]
    · simp [List.lookup_cons, hbc, hba]
    · simp [List.lookup_cons, hbc, hba]
    · exact absurd ((beq_iff_eq.mp hbc).symm.trans (beq_iff_eq.mp hba)) hca
  | trans h₁ h₂ ih₁ ih₂ =>
    intro hnd k
    have hnd₂ := (h₁.map Prod.fst).nodup hnd
    rw [ih₁ hnd k, ih₂ hnd₂ k]

theorem lookup_cons_singleton (k a : String) (v : Var) :
    List.lookup k [(a, v)] = if k = a then some v else none := by
  by_cases h : k = a
  · have hb : (k == a) = true := beq_iff_eq.mpr h
    simp [List.lookup_cons, hb, h]
  · have hb : (k == a) = false := beq_eq_false_iff_ne.mpr h
    simp [List.lookup_cons, hb, h]

/-- The map built by folding `Set` answers lookups like the reversed
operation list (last write wins), falling back to the initial entries. -/
theorem lookup_foldl_set :
    ∀ (ops : List (String × Var)) (s : MapState) (k : String),
      List.lookup k ((ops.foldl (fun s kv => s.set kv.1 kv.2) s)).entries
        = (List.lookup k ops.reverse).or (List.lookup k s.entries) := by
  intro ops
  induction ops with
  | nil => intro s k; simp
  | cons op rest ih =>
    intro s k
    obtain ⟨k₀, v₀⟩ := op
    rw [List.foldl_cons, ih, List.reverse_cons, List.lookup_append]
    rw [Option.or_assoc]
    congr 1
    show List.lookup k (MapState.set s k₀ v₀).entries = _
    rw [MapState.set]
    rw [lookup_insertVar, lookup_cons_singleton]
    by_cases h : k = k₀ <;> simp [h]

/-- Specialized to `buildOps`: lookups read the reversed operation list. -/
theorem lookup_buildOps (ops : List (String × Var)) (k : String) :
    List.lookup k (buildOps ops).entries = List.lookup k ops.reverse := by
  rw [buildOps, lookup_foldl_set]
  simp [MapState.init, Option.or_none]

/-- With duplicate-free operation keys, the built map's key set is the
operations' key list. -/
theorem mapKeys_foldl_set :
    ∀ (ops : List (String × Var)) (s : MapState),
      (mapKeys s.entries ++ ops.map Prod.fst).Nodup →
      mapKeys ((ops.foldl (fun s kv => s.set kv.1 kv.2) s)).entries
        = mapKeys s.entries ++ ops.map Prod.fst := by
  intro ops
  induction ops with
  | nil => intro s _; simp
  | cons op rest ih =>
    intro s hnd
    obtain ⟨k₀, v₀⟩ := op
    rw [List.foldl_cons]
    have hk₀ : k₀ ∉ mapKeys s.entries := by
      intro hmem
      rw [List.map_cons] at hnd
      exact (List.nodup_append.mp hnd).2.2 hmem (List.mem_cons_self ..)
    have hstep : mapKeys ((MapState.set s k₀ v₀).entries)
        = mapKeys s.entries ++ [k₀] := by
      show mapKeys (insertVar s.entries k₀ v₀) = _
      rw [mapKeys_insertVar, if_neg hk₀]
    have hrec := ih (MapState.set s k₀ v₀) (by
      rw [hstep, List.append_assoc]
      simpa using hnd)
    rw [hrec, hstep, List.append_assoc]
    rfl

theorem mapKeys_buildOps (ops : List (String × Var))
    (hnd : (ops.map Prod.fst).Nodup) :
    mapKeys (buildOps ops).entries = ops.map Prod.fst := by
  have := mapKeys_foldl_set ops MapState.init (by simpa [MapState.init, mapKeys])
  simpa [MapState.init, mapKeys] using this

/-- The cached key slice of any built map is the sorted key set of its
entries. -/
theorem keys_eq_sortStrings :
    ∀ (ops : List (String × Var)) (s : MapState),
      s.keys = sortStrings (mapKeys s.entries) →
      ((ops.foldl (fun s kv => s.set kv.1 kv.2) s)).keys
        = sortStrings (mapKeys ((ops.foldl (fun s kv => s.set kv.1 kv.2) s)).entries) := by
  intro ops
  induction ops with
  | nil => intro s h; exact h
  | cons op rest ih =>
    intro s _
    rw [List.foldl_cons]
    exact ih _ rfl

theorem keys_buildOps_eq (ops : List (String × Var)) :
    (buildOps ops).keys = sortStrings (mapKeys (buildOps ops).entries) :=
  keys_eq_sortStrings ops MapState.init rfl

/-- Sorting with `strLe` is a function of the multiset of keys alone. -/
theorem sortStrings_eq_of_perm {l₁ l₂ : List String} (h : l₁.Perm l₂) :
    sortStrings l₁ = sortStrings l₂ :=
  List.eq_of_perm_of_sorted
    ((sortStrings_perm l₁).trans (h.trans (sortStrings_perm l₂).symm))
    (sortStrings_sorted l₁) (sortStrings_sorted l₂)

/-- Build order does not matter: two `Set` sequences that are permutations of
one another (over distinct names) produce maps with identical `Items`. -/
theorem items_perm_indep (n : String) (ops ops' : List (String × Var))
    (hperm : ops'.Perm ops) (hnd : (ops.map Prod.fst).Nodup) :
    (buildOps ops').items n = (buildOps ops).items n := by
  have hpk : (ops'.map Prod.fst).Perm (ops.map Prod.fst) := hperm.map Prod.fst
  have hnd' : (ops'.map Prod.fst).Nodup := hpk.nodup_iff.mpr hnd
  have hkeys : (buildOps ops').keys = (buildOps ops).keys := by
    rw [keys_buildOps_eq, keys_buildOps_eq, mapKeys_buildOps _ hnd',
      mapKeys_buildOps _ hnd]
    exact sortStrings_eq_of_perm hpk
  have hlook : ∀ k, List.lookup k (buildOps ops').entries
      = List.lookup k (buildOps ops).entries := by
    intro k
    rw [lookup_buildOps, lookup_buildOps]
    refine lookup_perm_of_nodup ?_ ?_ k
    · exact (ops'.reverse_perm).trans (hperm.trans (ops.reverse_perm).symm)
    · rw [List.map_reverse, List.nodup_reverse]
      exact hnd'
  rw [MapState.items, MapState.items, hkeys]
  exact flattenMap_congr hlook _ _

/-- In a flat map whose members each serialize to one line, the flattened
keys are the member names under the group's dotted name. -/
theorem flattenMap_leafSingle (pre : String) (m : List (String × Var)) :
    ∀ keys : List String,
      (∀ k ∈ keys, ∃ v, List.lookup k m = some v ∧ isLeafSingle v = true) →
      (flattenMap pre m keys).map KeyValue.Key
        = keys.map (fun k => pre ++ "." ++ k) := by
  intro keys
  induction keys with
  | nil => intro _; simp [flattenMap]
  | cons k rest ih =>
    intro h
    obtain ⟨v, hv, hsingle⟩ := h k (List.mem_cons_self ..)
    rw [flattenMap_cons, List.map_append,
      ih (fun k' hk' => h k' (List.mem_cons_of_mem _ hk')), List.map_cons]
    rw [hv]
    cases v with
    | map key ents ks => simp [isLeafSingle] at hsingle
    | int key i => simp [flattenOne, leafItems]
    | func items =>
      have hlen : items.length = 1 := by simpa [isLeafSingle] using hsingle
      obtain ⟨it, rfl⟩ := List.length_eq_one.mp hlen
      simp [flattenOne, leafItems]

/-- C4 (amended): at every map the member names are visited in strictly
ascending lexicographic order regardless of insertion order — the key cache
is strictly sorted and `Items` is unchanged under permuting the `Set`
sequence; and for a flat map whose members each produce exactly one pair,
the emitted flattened keys themselves are strictly ascending.  (Across
nesting depths, or when one member emits several pairs, the concatenated
full keys need not be strictly ascending — see the counterexample.) -/
theorem flatten_order_and_determinism (ops : List (String × Var)) (n : String) :
    (buildOps ops).keys.Pairwise strLt ∧
    (∀ ops' : List (String × Var), ops'.Perm ops → (ops.map Prod.fst).Nodup →
      (buildOps ops').items n = (buildOps ops).items n) ∧
    ((∀ p ∈ (buildOps ops).entries, isLeafSingle p.2 = true) →
      (((buildOps ops).items n).map KeyValue.Key).Pairwise strLt) := by
  obtain ⟨hnd, hsort, hperm⟩ := buildOps_inv ops
  have hkeyslt : (buildOps ops).keys.Pairwise strLt :=
    pairwise_strLt_of_le_nodup hsort (hperm.symm.nodup hnd)
  refine ⟨hkeyslt, fun ops' h1 h2 => items_perm_indep n ops ops' h1 h2, ?_⟩
  intro hleaf
  have hhyp : ∀ k ∈ (buildOps ops).keys, ∃ v,
      List.lookup k (buildOps ops).entries = some v ∧ isLeafSingle v = true := by
    intro k hk
    have hmem : k ∈ mapKeys (buildOps ops).entries := hperm.mem_iff.mp hk
    have hsome := (lookup_isSome_iff_mem_mapKeys _ k).mpr hmem
    obtain ⟨v, hv⟩ := Option.isSome_iff_exists.mp hsome
    exact ⟨v, hv, hleaf (k, v) (lookup_mem hv)⟩
  rw [MapState.items, flattenMap_leafSingle _ _ _ hhyp]
  exact hkeyslt.map _ (fun a b hab => strLt_append_left (n ++ ".") a b hab)

theorem flatten_order_and_determinism_witness :
    ((buildOps [("a", Var.int "" 1), ("b", Var.int "" 2)]).items "g"
      = (buildOps [("b", Var.int "" 2), ("a", Var.int "" 1)]).items "g") ∧
    (((buildOps [("b", Var.int "" 2), ("a", Var.int "" 1)]).items "g").map
        KeyValue.Key).Pairwise strLt :=
  ⟨(flatten_order_and_determinism [("b", Var.int "" 2), ("a", Var.int "" 1)]
        "g").2.1
      [("a", Var.int "" 1), ("b", Var.int "" 2)]
      (List.Perm.swap ("b", Var.int "" 2) ("a", Var.int "" 1) [])
      (by decide),
   (flatten_order_and_determinism [("b", Var.int "" 2), ("a", Var.int "" 1)]
        "g").2.2 (by decide)⟩

/-- C4 as stated is false, in two ways.  A nested group named `a` next to a
member named `a-x` flattens — in sorted member order `a`, `a-x` — to the key
sequence `p.a.b`, `p.a-x`, which is *descending* (`'-' < '.'`); and a member
whose `Items` yields two pairs flattens to the same key twice, so the output
is not strictly ascending. -/
theorem flatten_sorted_counterexample :
    (((buildOps [("a", (buildOps [("b", Var.int "" 2)]).toVar ""),
          ("a-x", Var.int "" 1)]).items "p").map KeyValue.Key
        = ["p.a.b", "p.a-x"] ∧
      ¬ ((["p.a.b", "p.a-x"] : List String).Pairwise strLt)) ∧
    (((buildOps [("w", Var.func [⟨"x", "3"⟩, ⟨"y", "4"⟩])]).items "q").map
        KeyValue.Key = ["q.w", "q.w"] ∧
      ¬ ((["q.w", "q.w"] : List String).Pairwise strLt)) := by
  refine ⟨⟨?_, by decide⟩, ⟨?_, by decide⟩⟩
  · show (flattenMap "p"
        [("a", Var.map "" [("b", Var.int "" 2)] ["b"]), ("a-x", Var.int "" 1)]
        ["a", "a-x"]).map KeyValue.Key = _
    simp [flattenMap, List.lookup, leafItems]
  · show (flattenMap "q" [("w", Var.func [⟨"x", "3"⟩, ⟨"y", "4"⟩])]
        ["w"]).map KeyValue.Key = _
    simp [flattenMap, List.lookup, leafItems]

/-- Recording into a histogram whose buffer splits as written prefix plus
unwritten suffix fills the suffix in sequence: the ring buffer behaves as a
plain array until the first wrap-around. -/
theorem foldl_record :
    ∀ (vs : List Int) (pre suf : List Int) (hist : Histogram),
      hist.buffer = pre ++ suf → hist.counter = pre.length →
      hist.capacity = pre.length + suf.length → vs.length ≤ suf.length →
      (vs.foldl Histogram.Record hist).buffer = pre ++ vs ++ suf.drop vs.length := by
  intro vs
  induction vs with
  | nil =>
    intro pre suf hist hbuf _ _ _
    simpa using hbuf
  | cons v rest ih =>
    intro pre suf hist hbuf hcnt hcap hle
    cases suf with
    | nil => simp at hle
    | cons s₀ srest =>
      rw [List.foldl_cons]
      have hlt : hist.counter < hist.capacity := by
        rw [hcnt, hcap]
        simp
      have hbuf' : (hist.Record v).buffer = (pre ++ [v]) ++ srest := by
        show (hist.buffer.set (hist.counter % hist.capacity) v) = _
        rw [Nat.mod_eq_of_lt hlt, hbuf, hcnt,
          List.set_append_right pre.length v (le_refl _)]
        simp
      have hres := ih (pre ++ [v]) srest (hist.Record v) hbuf'
        (by show hist.counter + 1 = _
            rw [hcnt, List.length_append, List.length_cons, List.length_nil])
        (by show hist.capacity = _
            rw [hcap]
            simp only [List.length_append, List.length_cons, List.length_nil]
            omega)
        (by simpa using Nat.le_of_succ_le_succ (by simpa using hle))
      rw [hres]
      simp [List.append_assoc]

/-- The `TestHistogramPercentile` recording exactly fills the
capacity-1000 buffer with the recorded values in order. -/
theorem histRecordsC9_length : histRecordsC9.length = 1000 := by
  rw [histRecordsC9, List.length_append, List.length_append,
    List.length_append, List.length_replicate, List.length_replicate,
    List.length_replicate, List.length_replicate]

theorem histAfterC9_snapshot : histAfterC9.snapshot = histRecordsC9 := by
  have h := foldl_record histRecordsC9 [] (List.replicate 1000 0)
    (NewHistogram "foobar" 1000) rfl rfl
    (by rw [List.length_replicate]; rfl)
    (by rw [histRecordsC9_length, List.length_replicate])
  rw [histAfterC9, Histogram.takeSnapshot]
  rw [h, histRecordsC9_length,
    List.drop_eq_nil_of_le (by rw [List.length_replicate]),
    List.nil_append, List.append_nil]

theorem pairwise_intLe_replicate (n : Nat) (a : Int) :
    (List.replicate n a).Pairwise intLe :=
  List.pairwise_replicate.mpr (Or.inr (le_refl a))

theorem histRecordsC9_sorted : histRecordsC9.Pairwise intLe := by
  rw [histRecordsC9]
  rw [List.pairwise_append]
  refine ⟨?_, pairwise_intLe_replicate _ _, ?_⟩
  · rw [List.pairwise_append]
    refine ⟨?_, pairwise_intLe_replicate _ _, ?_⟩
    · rw [List.pairwise_append]
      refine ⟨pairwise_intLe_replicate _ _, pairwise_intLe_replicate _ _, ?_⟩
      intro a ha b hb
      rw [List.eq_of_mem_replicate ha, List.eq_of_mem_replicate hb]
      decide
    · intro a ha b hb
      rw [List.eq_of_mem_replicate hb]
      rw [List.mem_append] at ha
      rcases ha with ha | ha <;> rw [List.eq_of_mem_replicate ha] <;> decide
  · intro a ha b hb
    rw [List.eq_of_mem_replicate hb]
    rw [List.mem_append] at ha
    rcases ha with ha | ha
    · rw [List.mem_append] at ha
      rcases ha with ha | ha <;> rw [List.eq_of_mem_replicate ha] <;> decide
    · rw [List.eq_of_mem_replicate ha]
      decide

set_option maxRecDepth 100000 in
/-- C9: the nearest-rank percentile over the test's snapshot —
`index = ceil(p / 100 * (size - 1))` into the ascending sort — returns 3000
for p = 95, 99 and 100 on the capacity-1000 histogram that recorded 300×100,
300×500, 300×800, 100×3000. -/
theorem histogram_percentile_nearest_rank :
    histAfterC9.percentile 95 = 3000 ∧ histAfterC9.percentile 99 = 3000 ∧
    histAfterC9.percentile 100 = 3000 := by
  have hsort_eq : histRecordsC9.insertionSort intLe = histRecordsC9 :=
    List.Sorted.insertionSort_eq histRecordsC9_sorted
  have hcast : ((1000 : Nat) : ℚ) - 1 = 999 := by norm_num
  refine ⟨?_, ?_, ?_⟩ <;>
    simp only [Histogram.percentile, histAfterC9_snapshot, hsort_eq,
      histRecordsC9_length, hcast]
  · rw [show (95 : ℚ) / 100 * 999 = 18981 / 20 by norm_num]
    rw [show (⌈(18981 / 20 : ℚ)⌉ : ℤ) = 950 by
      rw [Int.ceil_eq_iff] <;> norm_num]
    decide
  · rw [show (99 : ℚ) / 100 * 999 = 98901 / 100 by norm_num]
    rw [show (⌈(98901 / 100 : ℚ)⌉ : ℤ) = 990 by
      rw [Int.ceil_eq_iff] <;> norm_num]
    decide
  · rw [show (100 : ℚ) / 100 * 999 = 999 by norm_num]
    rw [show (⌈(999 : ℚ)⌉ : ℤ) = 999 from Int.ceil_intCast 999]
    decide

end Mgr
